import Mathlib

/-!
Shallow embedding of the musaver/homesadmin admin dashboard core logic.

Modelling conventions, used throughout:
* JavaScript strings are Lean `String`s; where character-level splitting is
  needed (attribute keys, slugs) we work on `List Char` (`String.toList`).
* JavaScript numbers are modelled exactly: plain arithmetic sites
  (`priceUtils` calculations) use `ℚ`; sites where `NaN` / `Infinity`
  matter (`isValidPrice`, `parseFloat`, revenue coercion) use `JSNum`,
  a rational extended with `nan`, `posInf`, `negInf`.  None of the claims
  depends on binary floating-point rounding; every numeric literal involved
  is exactly representable.
* `Array.prototype.sort` (in-place, stable, by the given comparator) is
  modelled by `List.insertionSort` (stable); the in-place mutation of
  `calculateBulkPrice`'s `bulkRules` argument is made explicit by returning
  the final array state (`calculateBulkPriceRun`).
* `localeCompare` (only used as the sort key order inside
  `generateAttributeKey`) is modelled by the lexicographic code-point order
  `keyLe`; no claim depends on which total order is used, only on the sorted
  list being a permutation of the input.
-/

/-! ## JS number model -/

/-- A JavaScript number: `NaN`, the two infinities, or a finite value
(modelled exactly as a rational). -/
inductive JSNum where
  | nan : JSNum
  | posInf : JSNum
  | negInf : JSNum
  | fin : ℚ → JSNum
deriving DecidableEq

/-- JS `isNaN` on a number. -/
def JSNum.isNaN : JSNum → Bool
  | .nan => true
  | _ => false

/-- Spec-side notion: a JS number is finite iff it is neither `NaN` nor an
infinity (JS `Number.isFinite`).  Used only to state claims about
"finite" values; the source never tests finiteness. -/
def JSNum.isFinite : JSNum → Bool
  | .fin _ => true
  | _ => false

/-- JS comparison `x >= 0` on a number (`false` on `NaN`). -/
def jsGe0 : JSNum → Bool
  | .nan => false
  | .posInf => true
  | .negInf => false
  | .fin q => decide (0 ≤ q)

/-- JS truthiness of a number: everything but `0` and `NaN`. -/
def jsTruthyNum (n : JSNum) : Bool :=
  !(decide (n = .fin 0) || decide (n = .nan))

/-- JS `+` on numbers: `NaN` propagates, opposite infinities give `NaN`,
an infinity absorbs finite values. -/
def jsAdd : JSNum → JSNum → JSNum
  | .nan, _ => .nan
  | _, .nan => .nan
  | .posInf, .negInf => .nan
  | .negInf, .posInf => .nan
  | .posInf, _ => .posInf
  | _, .posInf => .posInf
  | .negInf, _ => .negInf
  | _, .negInf => .negInf
  | .fin a, .fin b => .fin (a + b)

/-- A JavaScript value as far as the utilities inspect one: a number, a
string, `undefined` or `null`. -/
inductive JSValue where
  | num : JSNum → JSValue
  | str : String → JSValue
  | undef : JSValue
  | nullv : JSValue
deriving DecidableEq

/-! ## parseFloat -/

/-- The whitespace characters JS `trim` / `parseFloat` skip (ASCII subset;
the claims only exercise these). -/
def isWsJS (c : Char) : Bool :=
  c == ' ' || c == '\t' || c == '\n' || c == '\r' || c.val == 11 || c.val == 12

/-- Numeric value of a decimal digit character. -/
def digitVal (c : Char) : ℕ := c.toNat - '0'.toNat

/-- Value of a decimal digit string. -/
def digitsToNat (ds : List Char) : ℕ := ds.foldl (fun n c => 10 * n + digitVal c) 0

/-- Split off the longest leading digit run (the pair of `takeWhile
isDigit` and the corresponding rest). -/
def splitDigits : List Char → List Char × List Char
  | [] => ([], [])
  | c :: cs =>
    if c.isDigit then
      let dr := splitDigits cs
      (c :: dr.1, dr.2)
    else ([], c :: cs)

/-- Apply an optional exponent part (`e`/`E`, optional sign, digits) to a
mantissa, as `parseFloat` does; an `e` not followed by digits is not part of
the longest valid numeric prefix and is ignored. -/
def applyExp (m : ℚ) (l : List Char) : ℚ :=
  match l with
  | c :: r =>
    if c = 'e' ∨ c = 'E' then
      let se : Bool × List Char :=
        match r with
        | '-' :: t => (true, t)
        | '+' :: t => (false, t)
        | t => (false, t)
      let ed := splitDigits se.2
      if ed.1 = [] then m
      else if se.1 then m / 10 ^ digitsToNat ed.1 else m * 10 ^ digitsToNat ed.1
    else m
  | [] => m

/-- Parse the unsigned decimal part after the optional sign:
`digits [. digits] [exponent]` or `. digits [exponent]`; `none` when no
digit is found (the whole parse then yields `NaN`). -/
def parseUnsigned (l : List Char) : Option ℚ :=
  let ip := splitDigits l
  match ip.2 with
  | '.' :: r2 =>
    let fp := splitDigits r2
    if ip.1 = [] ∧ fp.1 = [] then none
    else
      some (applyExp ((digitsToNat ip.1 : ℚ) + (digitsToNat fp.1 : ℚ) / 10 ^ fp.1.length) fp.2)
  | _ =>
    if ip.1 = [] then none
    else some (applyExp (digitsToNat ip.1 : ℚ) ip.2)

/-- JS `parseFloat` on a string: skip whitespace, optional sign, then
either `Infinity` or a decimal literal; `NaN` when no valid prefix exists. -/
def jsParseFloat (s : String) : JSNum :=
  let l := s.toList.dropWhile isWsJS
  let sl : Bool × List Char :=
    match l with
    | '-' :: t => (true, t)
    | '+' :: t => (false, t)
    | t => (false, t)
  if "Infinity".toList.isPrefixOf sl.2 then (if sl.1 then .negInf else .posInf)
  else
    match parseUnsigned sl.2 with
    | none => .nan
    | some q => .fin (if sl.1 then -q else q)

/-! ## priceUtils: isValidPrice / sanitizePrice -/

/-- `isValidPrice` from `src/utils/priceUtils.ts`:
`typeof price === 'number' && price >= 0 && !isNaN(price)`. -/
def isValidPrice : JSValue → Bool
  | .num n => jsGe0 n && !n.isNaN
  | _ => false

/-- `sanitizePrice` from `src/utils/priceUtils.ts` on a string input:
`parseFloat` the input, return it when `isValidPrice` accepts it, else `0`. -/
def sanitizePrice (s : String) : JSNum :=
  let parsed := jsParseFloat s
  if isValidPrice (.num parsed) then parsed else .fin 0

/-! ## priceUtils: calculateProfitMargin -/

/-- JS `Math.round`: half-way cases round toward positive infinity. -/
def jsRound (q : ℚ) : ℤ := ⌊q + 1 / 2⌋

/-- `calculateProfitMargin` from `src/utils/priceUtils.ts`:
`if (!costPrice || costPrice <= 0) return 0;` then
`Math.round(((price - costPrice) / price) * 100)`. -/
def calculateProfitMargin (price costPrice : ℚ) : ℚ :=
  if costPrice = 0 ∨ costPrice ≤ 0 then 0
  else (jsRound ((price - costPrice) / price * 100) : ℚ)

/-! ## priceUtils: generateAttributeKey / parseAttributeKey -/

/-- Split a character list at every occurrence of `c` (JS
`String.prototype.split` with a single-character separator: the result is
never empty, and the empty string splits to one empty part). -/
def splitOnChar (c : Char) : List Char → List (List Char)
  | [] => [[]]
  | x :: xs =>
    match splitOnChar c xs with
    | [] => [[]]
    | h :: t => if x = c then [] :: h :: t else (x :: h) :: t

/-- JS `Array.prototype.join` with a single-character separator. -/
def interChar (c : Char) : List (List Char) → List Char
  | [] => []
  | [p] => p
  | p :: ps => p ++ c :: interChar c ps

/-- Lexicographic code-point order on character lists; stands in for
`localeCompare` as the comparator of `generateAttributeKey`'s sort (see the
file header: only the permutation property of the sort matters). -/
def keyLe : List Char → List Char → Bool
  | [], _ => true
  | _ :: _, [] => false
  | a :: as, b :: bs => if a = b then keyLe as bs else decide (a < b)

/-- One `key:value` entry of the attribute key string. -/
def encPair (kv : List Char × List Char) : List Char := kv.1 ++ ':' :: kv.2

/-- `generateAttributeKey` from `src/utils/priceUtils.ts`: sort the entries
by key, render each as `key:value`, join with `|`.  The mapping (a JS
object with string keys) is modelled as an association list with distinct
keys. -/
def generateAttributeKey (m : List (List Char × List Char)) : List Char :=
  interChar '|'
    ((List.insertionSort (fun a b => keyLe a.1 b.1 = true) m).map encPair)

/-- JS object property assignment `attributes[key] = value`: overwrite an
existing key in place, else append. -/
def insertKV (m : List (List Char × List Char)) (k v : List Char) :
    List (List Char × List Char) :=
  if m.any (fun p => p.1 == k) then m.map (fun p => if p.1 = k then (k, v) else p)
  else m ++ [(k, v)]

/-- First value bound to `k` (JS object property read). -/
def lookupKV (m : List (List Char × List Char)) (k : List Char) : Option (List Char) :=
  (m.find? (fun p => p.1 == k)).map (·.2)

/-- The body of `parseAttributeKey`'s `forEach`: split the part on `:`,
take the first two components as key and value (`value` is `undefined`
when the split has a single component), and store them only when both are
truthy (non-empty). -/
def parsePairStep (acc : List (List Char × List Char)) (pair : List Char) :
    List (List Char × List Char) :=
  match splitOnChar ':' pair with
  | k :: v :: _ => if k ≠ [] ∧ v ≠ [] then insertKV acc k v else acc
  | _ => acc

/-- `parseAttributeKey` from `src/utils/priceUtils.ts`: split on `|` and
fold the pair-parsing step over the parts, starting from the empty
object. -/
def parseAttributeKey (s : List Char) : List (List Char × List Char) :=
  (splitOnChar '|' s).foldl parsePairStep []

/-- Deep equality of two attribute mappings (JS object deep-equals: same
keys, same value at each key; key order irrelevant).  Correct whenever both
association lists have distinct keys, which holds at every use site. -/
def mapEqb (m1 m2 : List (List Char × List Char)) : Bool :=
  m1.all (fun p => lookupKV m2 p.1 == some p.2) &&
  m2.all (fun p => lookupKV m1 p.1 == some p.2)

/-- Distinctness of the keys of an association list. -/
def keysNodup (m : List (List Char × List Char)) : Prop :=
  (m.map Prod.fst).Nodup

/-! ## priceUtils: calculateBulkPrice -/

/-- A bulk pricing rule `minQty / discount` (percent). -/
structure BulkRule where
  minQty : ℚ
  discount : ℚ
deriving DecidableEq

/-- The descending-`minQty` order the comparator
`(a, b) => b.minQty - a.minQty` sorts by. -/
def bulkGe (a b : BulkRule) : Prop := b.minQty ≤ a.minQty

instance : DecidableRel bulkGe := fun a b => inferInstanceAs (Decidable (b.minQty ≤ a.minQty))

instance : IsTotal BulkRule bulkGe := ⟨fun a b => le_total b.minQty a.minQty⟩

instance : IsTrans BulkRule bulkGe := ⟨fun _ _ _ h1 h2 => le_trans h2 h1⟩

/-- The loop of `calculateBulkPrice`: first rule (in the given order) whose
`minQty` the quantity reaches; `0` when none matches. -/
def bulkFirstDiscount (quantity : ℚ) : List BulkRule → ℚ
  | [] => 0
  | r :: rs => if quantity ≥ r.minQty then r.discount else bulkFirstDiscount quantity rs

/-- `calculateBulkPrice` from `src/utils/priceUtils.ts`, with the state of
the `bulkRules` array after the call made explicit: `bulkRules.sort((a, b)
=> b.minQty - a.minQty)` sorts the array in place (descending `minQty`,
stable), so the caller's array ends up sorted.  Returns
(result, final array state). -/
def calculateBulkPriceRun (basePrice quantity : ℚ) (bulkRules : List BulkRule) :
    ℚ × List BulkRule :=
  let sorted := List.insertionSort bulkGe bulkRules
  (basePrice * (1 - bulkFirstDiscount quantity sorted / 100), sorted)

/-- The return value of `calculateBulkPrice`. -/
def calculateBulkPrice (basePrice quantity : ℚ) (bulkRules : List BulkRule) : ℚ :=
  (calculateBulkPriceRun basePrice quantity bulkRules).1

/-! ## priceUtils: generateSlug / isValidSlug -/

/-- Lowercase ASCII letter. -/
def isLowerAZ (c : Char) : Bool := 'a' ≤ c && c ≤ 'z'

/-- ASCII digit. -/
def isDigit09 (c : Char) : Bool := '0' ≤ c && c ≤ '9'

/-- A character the slug alphabet allows inside a segment. -/
def isAlnumLower (c : Char) : Bool := isLowerAZ c || isDigit09 c

/-- A character `generateSlug`'s cleanup keeps: the complement of the
removal class `[^a-z0-9\s-]`. -/
def isSafeChar (c : Char) : Bool := isAlnumLower c || isWsJS c || c == '-'

/-- A Unicode combining diacritical mark (U+0300 – U+036F), the class the
slug pipeline strips after NFD normalization. -/
def isCombiningMark (c : Char) : Bool := 0x300 ≤ c.val && c.val ≤ 0x36f

/-- Modelled from `String.prototype.normalize('NFD')`: canonical
decomposition, restricted to a table of common precomposed Latin letters
(the proofs below never depend on the table — every decomposition product
other than `[a-z0-9\s-]` is removed by the next pipeline stage anyway). -/
def nfdChar (c : Char) : List Char :=
  match c with
  | 'à' => ['a', '̀'] | 'á' => ['a', '́'] | 'â' => ['a', '̂']
  | 'ã' => ['a', '̃'] | 'ä' => ['a', '̈'] | 'å' => ['a', '̊']
  | 'è' => ['e', '̀'] | 'é' => ['e', '́'] | 'ê' => ['e', '̂']
  | 'ë' => ['e', '̈']
  | 'ì' => ['i', '̀'] | 'í' => ['i', '́'] | 'î' => ['i', '̂']
  | 'ï' => ['i', '̈']
  | 'ò' => ['o', '̀'] | 'ó' => ['o', '́'] | 'ô' => ['o', '̂']
  | 'õ' => ['o', '̃'] | 'ö' => ['o', '̈']
  | 'ù' => ['u', '̀'] | 'ú' => ['u', '́'] | 'û' => ['u', '̂']
  | 'ü' => ['u', '̈']
  | 'ñ' => ['n', '̃'] | 'ç' => ['c', '̧'] | 'ý' => ['y', '́']
  | _ => [c]

/-- JS `String.prototype.trim` (whitespace from both ends). -/
def trimChars (l : List Char) : List Char :=
  ((l.dropWhile isWsJS).reverse.dropWhile isWsJS).reverse

/-- Replace every maximal run of characters satisfying `p` by the single
character `r`: the regex replaces `\s+` → `-` and `-+` → `-` of the slug
pipeline.  A character of a run is dropped while its successor is still in
the run, and the run's last character emits the replacement. -/
def collapseRun (p : Char → Bool) (r : Char) : List Char → List Char
  | [] => []
  | [c] => if p c then [r] else [c]
  | c :: d :: cs =>
    if p c && p d then collapseRun p r (d :: cs)
    else (if p c then r else c) :: collapseRun p r (d :: cs)

/-- The regex replace `/^-+|-+$/g` → `''`: drop the characters satisfying
`p` from both ends. -/
def stripEdges (p : Char → Bool) (l : List Char) : List Char :=
  ((l.dropWhile p).reverse.dropWhile p).reverse

/-- `generateSlug` from `src/utils/priceUtils.ts`: guard against empty
input, then lowercase, trim, NFD-normalize, strip combining marks, remove
everything outside `[a-z0-9\s-]`, collapse whitespace runs to `-`, collapse
`-` runs, and strip `-` from both ends. -/
def generateSlug (title : String) : String :=
  if title = "" then ""
  else
    String.mk
      (stripEdges (fun c => c == '-')
        (collapseRun (fun c => c == '-') '-'
          (collapseRun isWsJS '-'
            (((((trimChars (title.toList.map Char.toLower)).flatMap nfdChar).filter
                (fun c => !isCombiningMark c)).filter isSafeChar)))))

/-- The regex `^[a-z0-9]+(-[a-z0-9]+)*$` as a recursive matcher;
`inSeg = true` means at least one alphanumeric character of the current
segment has been read. -/
def slugMatch : Bool → List Char → Bool
  | inSeg, [] => inSeg
  | inSeg, c :: cs =>
    if c = '-' then inSeg && slugMatch false cs
    else isAlnumLower c && slugMatch true cs

/-- `isValidSlug` from `src/utils/priceUtils.ts`: non-empty and matching
`^[a-z0-9]+(-[a-z0-9]+)*$` (the empty string already fails the matcher). -/
def isValidSlug (slug : String) : Bool := slugMatch false slug.toList

/-! ## Orders page: data model -/

/-- The `totalAmount` of an order as it arrives from the upstream source:
a number, a numeric (or arbitrary) string, or missing (`undefined`/`null`). -/
inductive Amount where
  | num : JSNum → Amount
  | str : String → Amount
  | missing : Amount
deriving DecidableEq

/-- A line item of an order, restricted to the fields the filter logic
reads. -/
structure OrderItem where
  productName : String
  sku : Option String
deriving DecidableEq

/-- An order record, restricted to the fields the filter / aggregate /
delete logic reads.  `createdAt` is the parsed `Date` instant (timestamps
compare as rationals; `new Date` on the stored ISO string is modelled as
this instant). -/
structure Order where
  id : String
  orderNumber : String
  email : String
  status : String
  paymentStatus : String
  shippingFirstName : Option String
  shippingLastName : Option String
  totalAmount : Amount
  createdAt : ℚ
  items : Option (List OrderItem)
deriving DecidableEq

/-- JS `haystack.includes(needle)` (substring test). -/
def jsIncludes (hay needle : String) : Bool :=
  decide (needle.toList <:+: hay.toList)

/-- Lowercased form, as `toLowerCase` produces it. -/
def lcStr (s : String) : String := s.toLower

/-- The search predicate of `filterOrders`
(`src/app/orders/page.tsx`): case-insensitive substring match on order
number, email, shipping first/last name, or any item's product name / SKU;
missing optional fields never match. -/
def searchMatch (term : String) (o : Order) : Bool :=
  jsIncludes (lcStr o.orderNumber) (lcStr term) ||
  jsIncludes (lcStr o.email) (lcStr term) ||
  (o.shippingFirstName.elim false fun s => jsIncludes (lcStr s) (lcStr term)) ||
  (o.shippingLastName.elim false fun s => jsIncludes (lcStr s) (lcStr term)) ||
  (o.items.elim false fun its => its.any fun it =>
    jsIncludes (lcStr it.productName) (lcStr term) ||
    (it.sku.elim false fun k => jsIncludes (lcStr k) (lcStr term)))

/-- `filterOrders` from `src/app/orders/page.tsx`: successively narrow the
order list by the search term (when non-empty), the status filter (when not
`"all"`), the payment-status filter (when not `"all"`), and the two date
bounds (when set; an unset bound is the empty string, modelled as `none`). -/
def filterOrders (term statusFilter paymentFilter : String)
    (startDate endDate : Option ℚ) (orders : List Order) : List Order :=
  let f1 := if term ≠ "" then orders.filter (searchMatch term) else orders
  let f2 := if statusFilter ≠ "all" then f1.filter (fun o => o.status == statusFilter) else f1
  let f3 :=
    if paymentFilter ≠ "all" then f2.filter (fun o => o.paymentStatus == paymentFilter) else f2
  let f4 :=
    match startDate with
    | some d => f3.filter (fun o => decide (o.createdAt ≥ d))
    | none => f3
  match endDate with
  | some d => f4.filter (fun o => decide (o.createdAt ≤ d))
  | none => f4

/-- `n || 0`: replace a falsy number (`0`, `NaN`) by `0`. -/
def jsOr0 (n : JSNum) : JSNum := if jsTruthyNum n then n else .fin 0

/-- The revenue coercion of `getOrderStats`:
`parseFloat(String(order.totalAmount || '0')) || 0`.  A falsy
`totalAmount` (missing, `NaN`, `0`, `''`) is replaced by `'0'` before the
parse; for a truthy JS number `n`, `parseFloat(String(n)) = n` (exact for
every JS number, infinities included), so the number branch returns the
number itself. -/
def coerceAmount : Amount → JSNum
  | .num n => jsOr0 (if jsTruthyNum n then n else jsParseFloat "0")
  | .str s => jsOr0 (jsParseFloat (if s = "" then "0" else s))
  | .missing => jsOr0 (jsParseFloat "0")

/-- The aggregate record `getOrderStats` returns. -/
structure OrderStats where
  totalOrders : ℕ
  totalRevenue : JSNum
  pendingOrders : ℕ
  completedOrders : ℕ
deriving DecidableEq

/-- `getOrderStats` from `src/app/orders/page.tsx`, over the filtered
order list: count, revenue sum (with the defensive string coercion),
pending count, completed count. -/
def getOrderStats (filteredOrders : List Order) : OrderStats :=
  { totalOrders := filteredOrders.length
    totalRevenue :=
      filteredOrders.foldl (fun sum o => jsAdd sum (coerceAmount o.totalAmount)) (.fin 0)
    pendingOrders := (filteredOrders.filter (fun o => o.status == "pending")).length
    completedOrders := (filteredOrders.filter (fun o => o.status == "completed")).length }

/-! ## Orders page: addon title resolution -/

/-- An entry of the separately fetched addon catalog (`/api/addons`). -/
structure CatalogAddon where
  id : String
  title : String
deriving DecidableEq

/-- A stored addon selection as `getAddonTitle` inspects it: each field may
be absent. -/
structure AddonSel where
  addonId : Option String
  addonTitle : Option String
  title : Option String
  name : Option String
deriving DecidableEq

/-- JS truthiness of an optional string field: present and non-empty. -/
def truthyStr : Option String → Bool
  | none => false
  | some s => s != ""

/-- `getAddonTitle` from `src/app/orders/page.tsx`: embedded `addonTitle`,
then embedded `title`, then embedded `name`, then (when `addonId` is truthy
and the catalog is non-empty) the title of the catalog entry found by id,
else the positional fallback `"Addon (index+1)"`. -/
def getAddonTitle (addons : List CatalogAddon) (addon : AddonSel) (index : ℕ) : String :=
  if truthyStr addon.addonTitle then addon.addonTitle.getD ""
  else if truthyStr addon.title then addon.title.getD ""
  else if truthyStr addon.name then addon.name.getD ""
  else if truthyStr addon.addonId && decide (addons.length > 0) then
    match addons.find? (fun a => a.id == addon.addonId.getD "") with
    | some f => f.title
    | none => "Addon " ++ toString (index + 1)
  else "Addon " ++ toString (index + 1)

/-! ## Delete handlers -/

/-- The outcome of an awaited `fetch`: a resolved response with `ok`
status, a resolved response with a non-ok status, or a rejection (network
error). -/
inductive FetchOutcome where
  | ok : FetchOutcome
  | notOk : FetchOutcome
  | networkError : FetchOutcome
deriving DecidableEq

/-- `handleDelete` from `src/app/orders/page.tsx` (after the confirm
dialog): the list passed to `setOrders`.  Only an `ok` response filters the
list; a non-ok response throws into the catch (alert) and a rejection lands
in the catch too — both leave the list unchanged. -/
def ordersHandleDelete (orders : List Order) (id : String) (resp : FetchOutcome) :
    List Order :=
  match resp with
  | .ok => orders.filter (fun o => o.id != id)
  | .notOk => orders
  | .networkError => orders

/-- A row of the products listing (`/api/products` wraps the product record
in a `product` field). -/
structure ProductCore where
  id : String
deriving DecidableEq

/-- A row of the products page list. -/
structure ProductRow where
  product : ProductCore
deriving DecidableEq

/-- `handleDelete` from `src/app/products/page.tsx` (after the confirm
dialog): the fetch response's `ok` status is never inspected, so the list
is filtered whenever the fetch resolves — ok or not; only a rejected fetch
reaches the catch and leaves the list unchanged. -/
def productsHandleDelete (products : List ProductRow) (id : String) (resp : FetchOutcome) :
    List ProductRow :=
  match resp with
  | .ok => products.filter (fun p => p.product.id != id)
  | .notOk => products.filter (fun p => p.product.id != id)
  | .networkError => products

/-! ## Specification-side vocabulary and sample data -/

/-- The conjunction of the active filters, as the spec describes the
filtered result: an order is kept iff the search term is inactive or
matches, the status filter is inactive or equal, the payment filter is
inactive or equal, and the creation instant lies within the given bounds. -/
def filterPred (term sf pf : String) (sd ed : Option ℚ) (o : Order) : Bool :=
  (decide (term = "") || searchMatch term o) &&
  (decide (sf = "all") || o.status == sf) &&
  (decide (pf = "all") || o.paymentStatus == pf) &&
  (sd.elim true fun d => decide (o.createdAt ≥ d)) &&
  (ed.elim true fun d => decide (o.createdAt ≤ d))

/-- Sample order: status pending, total carried as the numeric string
`"12.5"`. -/
def sampleOrder1 : Order :=
  { id := "o1", orderNumber := "ORD-1", email := "ann@example.com", status := "pending",
    paymentStatus := "paid", shippingFirstName := none, shippingLastName := none,
    totalAmount := .str "12.5", createdAt := 0, items := none }

/-- Sample order: status completed, total missing. -/
def sampleOrder2 : Order :=
  { id := "o2", orderNumber := "ORD-2", email := "bob@example.com", status := "completed",
    paymentStatus := "paid", shippingFirstName := none, shippingLastName := none,
    totalAmount := .missing, createdAt := 1, items := none }

/-- Sample order: status completed, total carried as the number `10`. -/
def sampleOrder3 : Order :=
  { id := "o3", orderNumber := "ORD-3", email := "cai@example.com", status := "completed",
    paymentStatus := "pending", shippingFirstName := none, shippingLastName := none,
    totalAmount := .num (.fin 10), createdAt := 2, items := none }

/-! ## Claim C2: isValidPrice / sanitizePrice -/

/-- C2 counterexample: the claim states `isValidPrice(v)` is true iff `v`
is a finite non-negative number; but the source only checks
`typeof === 'number'`, `>= 0` and `!isNaN`, so positive `Infinity` — a
non-finite number — is accepted. -/
theorem C2_isValidPrice_cex :
    isValidPrice (.num .posInf) = true ∧ JSNum.isFinite .posInf = false := by
  decide

/-- C2 (amended): `isValidPrice(v)` is true iff `v` is a number that is
not `NaN` and compares `>= 0` (positive `Infinity` included); `sanitizePrice`
parses loosely and returns `0` whenever the parse does not yield such a
value; `sanitizePrice("abc") = 0` and `sanitizePrice("12.5") = 12.5`. -/
theorem C2_isValidPrice_sanitizePrice_amended :
    (∀ v : JSValue, isValidPrice v = true ↔
      ∃ n : JSNum, v = .num n ∧ n.isNaN = false ∧ jsGe0 n = true) ∧
    (∀ s : String, isValidPrice (.num (jsParseFloat s)) = false → sanitizePrice s = .fin 0) ∧
    sanitizePrice "abc" = .fin 0 ∧ sanitizePrice "12.5" = .fin (25 / 2) := by
  refine ⟨fun v => ?_, fun s h => ?_, by decide, ?_⟩
  · cases v with
    | num n => simp [isValidPrice, and_comm]
    | str s => simp [isValidPrice]
    | undef => simp [isValidPrice]
    | nullv => simp [isValidPrice]
  · simp only [sanitizePrice, h, Bool.false_eq_true, if_false]
  · have h1 : digitsToNat ['1', '2'] = 12 := by decide
    have h2 : digitsToNat ['5'] = 5 := by decide
    have hp : jsParseFloat "12.5" = .fin (25 / 2) := by
      simp +decide [jsParseFloat, parseUnsigned, applyExp, splitDigits, isWsJS, h1, h2]
      norm_num
    simp only [sanitizePrice, hp]
    norm_num [isValidPrice, jsGe0, JSNum.isNaN]

/-- C2 witness: the fallback conjunct applied at the concrete failing
input `"xyz"`. -/
theorem C2_isValidPrice_sanitizePrice_amended_witness :
    isValidPrice (.num (jsParseFloat "xyz")) = false ∧ sanitizePrice "xyz" = .fin 0 :=
  ⟨by decide, C2_isValidPrice_sanitizePrice_amended.2.1 "xyz" (by decide)⟩

/-! ## Claim C3: calculateProfitMargin -/

/-- C3: `calculateProfitMargin(price, costPrice)` returns
`round(((price - costPrice) / price) * 100)` when `costPrice > 0` and `0`
otherwise; in particular `calculateProfitMargin(100, 60) = 40` and
`calculateProfitMargin(100, 0) = 0`. -/
theorem C3_calculateProfitMargin_spec :
    (∀ price costPrice : ℚ, calculateProfitMargin price costPrice =
      if 0 < costPrice then (jsRound ((price - costPrice) / price * 100) : ℚ) else 0) ∧
    calculateProfitMargin 100 60 = 40 ∧ calculateProfitMargin 100 0 = 0 := by
  refine ⟨fun price costPrice => ?_, ?_, ?_⟩
  · by_cases h : 0 < costPrice
    · rw [calculateProfitMargin, if_neg, if_pos h]
      rintro (h0 | hle)
      · exact absurd h0 (ne_of_gt h)
      · exact absurd h (not_lt_of_le hle)
    · rw [calculateProfitMargin, if_pos (Or.inr (le_of_not_lt h)), if_neg h]
  · norm_num [calculateProfitMargin, jsRound]
  · norm_num [calculateProfitMargin]

/-! ## Claim C4: purity / the in-place sort of calculateBulkPrice -/

/-- C4 counterexample: the claim states `calculateBulkPrice` leaves its
`bulkRules` argument with the same elements in the same order; but
`bulkRules.sort(...)` sorts the caller's array in place, so an unsorted
input comes back reordered. -/
theorem C4_bulkRules_unchanged_cex :
    (calculateBulkPriceRun 100 5 [⟨3, 10⟩, ⟨10, 20⟩]).2 ≠ [⟨3, 10⟩, ⟨10, 20⟩] := by
  intro h
  have hs : ((calculateBulkPriceRun 100 5 [⟨3, 10⟩, ⟨10, 20⟩]).2).Pairwise bulkGe :=
    List.sorted_insertionSort bulkGe _
  rw [h] at hs
  have h10 : bulkGe ⟨3, 10⟩ ⟨10, 20⟩ :=
    List.rel_of_pairwise_cons hs (List.mem_cons_self _ _)
  norm_num [bulkGe] at h10

/-- C4 (amended): `calculateBulkPrice` may reorder its `bulkRules`
argument — it sorts the array in place, descending by `minQty` — but the
elements themselves are preserved: the final array state is a permutation
of the input (and is sorted by `bulkGe`). -/
theorem C4_bulkRules_perm_amended :
    ∀ (basePrice quantity : ℚ) (bulkRules : List BulkRule),
      ((calculateBulkPriceRun basePrice quantity bulkRules).2).Perm bulkRules ∧
      ((calculateBulkPriceRun basePrice quantity bulkRules).2).Pairwise bulkGe :=
  fun _ _ rules =>
    ⟨List.perm_insertionSort bulkGe rules, List.sorted_insertionSort bulkGe rules⟩

/-! ## Claim C5: delete handlers -/

/-- C5 counterexample: the claim states the product list is unchanged on a
non-ok delete response; but the products page never checks `response.ok`,
so the product disappears from the list even when the server reports
failure. -/
theorem C5_products_delete_cex :
    productsHandleDelete [⟨⟨"p1"⟩⟩] "p1" .notOk = [] ∧
    productsHandleDelete [⟨⟨"p1"⟩⟩] "p1" .notOk ≠ [⟨⟨"p1"⟩⟩] := by
  decide

/-- C5 (amended): the orders page removes the order only on a confirmed ok
response and leaves the list unchanged on a non-ok response or a network
error; the products page filters the list whenever the fetch resolves —
ok or not — and leaves it unchanged only when the fetch rejects. -/
theorem C5_delete_amended :
    (∀ (orders : List Order) (id : String),
      ordersHandleDelete orders id .ok = orders.filter (fun o => o.id != id)) ∧
    (∀ (orders : List Order) (id : String), ordersHandleDelete orders id .notOk = orders) ∧
    (∀ (orders : List Order) (id : String),
      ordersHandleDelete orders id .networkError = orders) ∧
    (∀ (ps : List ProductRow) (id : String),
      productsHandleDelete ps id .ok = ps.filter (fun p => p.product.id != id)) ∧
    (∀ (ps : List ProductRow) (id : String),
      productsHandleDelete ps id .notOk = ps.filter (fun p => p.product.id != id)) ∧
    (∀ (ps : List ProductRow) (id : String),
      productsHandleDelete ps id .networkError = ps) :=
  ⟨fun _ _ => rfl, fun _ _ => rfl, fun _ _ => rfl,
   fun _ _ => rfl, fun _ _ => rfl, fun _ _ => rfl⟩

/-! ## Claim C6: calculateBulkPrice rule selection -/

/-- When no rule of the list is satisfied, the selection loop returns a
zero discount. -/
theorem bulkFirstDiscount_of_no_match (quantity : ℚ) :
    ∀ l : List BulkRule, (∀ r ∈ l, ¬ quantity ≥ r.minQty) →
      bulkFirstDiscount quantity l = 0
  | [], _ => rfl
  | r :: rs, h => by
    show (if quantity ≥ r.minQty then r.discount else bulkFirstDiscount quantity rs) = 0
    rw [if_neg (h r (List.mem_cons_self r rs))]
    exact bulkFirstDiscount_of_no_match quantity rs fun s hs => h s (List.mem_cons_of_mem r hs)

/-- On a descending-sorted rule list, the selection loop returns the
discount of a satisfied rule of maximal `minQty`. -/
theorem bulkFirstDiscount_of_match (quantity : ℚ) :
    ∀ l : List BulkRule, l.Pairwise bulkGe → (∃ r ∈ l, quantity ≥ r.minQty) →
      ∃ r ∈ l, quantity ≥ r.minQty ∧
        (∀ s ∈ l, quantity ≥ s.minQty → s.minQty ≤ r.minQty) ∧
        bulkFirstDiscount quantity l = r.discount
  | [], _, hex => absurd hex.choose_spec.1 (List.not_mem_nil _)
  | r :: rs, hp, hex => by
    by_cases hm : quantity ≥ r.minQty
    · refine ⟨r, List.mem_cons_self r rs, hm, fun s hs _ => ?_, ?_⟩
      · rcases List.mem_cons.mp hs with h | h
        · exact h ▸ le_refl _
        · exact List.rel_of_pairwise_cons hp h
      · show (if quantity ≥ r.minQty then r.discount else bulkFirstDiscount quantity rs) =
          r.discount
        rw [if_pos hm]
    · obtain ⟨t, ht, hqt⟩ := hex
      rcases List.mem_cons.mp ht with h | ht'
      · exact absurd (h ▸ hqt) hm
      · obtain ⟨u, hu, hqu, hmax, heq⟩ :=
          bulkFirstDiscount_of_match quantity rs hp.of_cons ⟨t, ht', hqt⟩
        refine ⟨u, List.mem_cons_of_mem r hu, hqu, fun s hs hqs => ?_, ?_⟩
        · rcases List.mem_cons.mp hs with h | h
          · exact absurd (h ▸ hqs) hm
          · exact hmax s h hqs
        · show (if quantity ≥ r.minQty then r.discount else bulkFirstDiscount quantity rs) =
            u.discount
          rw [if_neg hm]
          exact heq

/-- C6: `calculateBulkPrice` applies the discount of a satisfied rule of
maximal `minQty` (the first match of the descending-sorted list) as
`basePrice * (1 - discount/100)`; with no satisfied rule it returns
`basePrice` unchanged; in particular
`calculateBulkPrice(100, 5, [(10,20),(3,10)]) = 90`. -/
theorem C6_calculateBulkPrice_spec :
    (∀ (basePrice quantity : ℚ) (rules : List BulkRule),
      ((∀ r ∈ rules, ¬ quantity ≥ r.minQty) →
        calculateBulkPrice basePrice quantity rules = basePrice) ∧
      ((∃ r ∈ rules, quantity ≥ r.minQty) →
        ∃ r ∈ rules, quantity ≥ r.minQty ∧
          (∀ s ∈ rules, quantity ≥ s.minQty → s.minQty ≤ r.minQty) ∧
          calculateBulkPrice basePrice quantity rules = basePrice * (1 - r.discount / 100))) ∧
    calculateBulkPrice 100 5 [⟨10, 20⟩, ⟨3, 10⟩] = 90 := by
  constructor
  · intro basePrice quantity rules
    have hperm := List.perm_insertionSort bulkGe rules
    have hsort := List.sorted_insertionSort bulkGe rules
    constructor
    · intro h
      have h0 : bulkFirstDiscount quantity (List.insertionSort bulkGe rules) = 0 :=
        bulkFirstDiscount_of_no_match quantity _ fun r hr => h r (hperm.mem_iff.mp hr)
      show basePrice *
        (1 - bulkFirstDiscount quantity (List.insertionSort bulkGe rules) / 100) = basePrice
      rw [h0]
      ring
    · intro hex
      obtain ⟨t, ht, hqt⟩ := hex
      obtain ⟨u, hu, hqu, hmax, heq⟩ :=
        bulkFirstDiscount_of_match quantity _ hsort ⟨t, hperm.mem_iff.mpr ht, hqt⟩
      refine ⟨u, hperm.mem_iff.mp hu, hqu,
        fun s hs hqs => hmax s (hperm.mem_iff.mpr hs) hqs, ?_⟩
      show basePrice *
        (1 - bulkFirstDiscount quantity (List.insertionSort bulkGe rules) / 100) =
        basePrice * (1 - u.discount / 100)
      rw [heq]
  · have hs : List.insertionSort bulkGe [⟨(10 : ℚ), (20 : ℚ)⟩, ⟨3, 10⟩] =
        [⟨10, 20⟩, ⟨3, 10⟩] := by
      simp only [List.insertionSort, List.orderedInsert]
      rw [if_pos]
      show (3 : ℚ) ≤ 10
      norm_num
    show (100 : ℚ) *
      (1 - bulkFirstDiscount 5 (List.insertionSort bulkGe [⟨10, 20⟩, ⟨3, 10⟩]) / 100) = 90
    rw [hs]
    show (100 : ℚ) *
      (1 - (if (5 : ℚ) ≥ 10 then (20 : ℚ) else
        if (5 : ℚ) ≥ 3 then (10 : ℚ) else bulkFirstDiscount 5 []) / 100) = 90
    norm_num

/-- C6 witness: the match conjunct instantiated at the concrete example
(the satisfied rule of maximal `minQty` is `(3, 10)`). -/
theorem C6_calculateBulkPrice_spec_witness :
    calculateBulkPrice 100 5 [⟨10, 20⟩, ⟨3, 10⟩] = 90 ∧
    ∃ r ∈ ([⟨10, 20⟩, ⟨3, 10⟩] : List BulkRule), (5 : ℚ) ≥ r.minQty ∧
      (∀ s ∈ ([⟨10, 20⟩, ⟨3, 10⟩] : List BulkRule), (5 : ℚ) ≥ s.minQty → s.minQty ≤ r.minQty) ∧
      calculateBulkPrice 100 5 [⟨10, 20⟩, ⟨3, 10⟩] = 100 * (1 - r.discount / 100) :=
  ⟨C6_calculateBulkPrice_spec.2,
   (C6_calculateBulkPrice_spec.1 100 5 _).2 ⟨⟨3, 10⟩, by norm_num, by norm_num⟩⟩

/-! ## Claim C7: order filtering -/

/-- An `if`-guarded filter stage equals an unconditional filter whose
predicate is weakened by the stage's activity condition. -/
theorem ite_filter_eq {α : Type} (c : Prop) [Decidable c] (p : α → Bool) (l : List α) :
    (if c then l.filter p else l) = l.filter (fun a => !(decide c) || p a) := by
  by_cases h : c
  · simp [h]
  · simp [h]

/-- The four sequential narrowing stages of `filterOrders` compute exactly
the filter by the conjunction of the active filters. -/
theorem filterOrders_eq (term sf pf : String) (sd ed : Option ℚ) (orders : List Order) :
    filterOrders term sf pf sd ed orders = orders.filter (filterPred term sf pf sd ed) := by
  simp only [filterOrders]
  rw [ite_filter_eq, ite_filter_eq, ite_filter_eq]
  cases sd <;> cases ed <;>
    · simp only [List.filter_filter, Option.elim]
      apply List.filter_congr
      intro a _
      by_cases h1 : term = "" <;> by_cases h2 : sf = "all" <;> by_cases h3 : pf = "all" <;>
        simp [filterPred, h1, h2, h3, Bool.and_assoc, Bool.and_comm, Bool.and_left_comm]

/-- C7: the filtered order list is the intersection (AND) of all active
filters — one `List.filter` by the conjunction `filterPred` — with the
status filter keeping exactly the orders of the selected status (skipped
on `"all"`); on three orders with statuses pending/completed/completed,
filtering by `"completed"` returns exactly the two completed orders and
the `completedOrders` aggregate equals `2`. -/
theorem C7_filterOrders_spec :
    (∀ (term sf pf : String) (sd ed : Option ℚ) (orders : List Order),
      filterOrders term sf pf sd ed orders = orders.filter (filterPred term sf pf sd ed)) ∧
    filterOrders "" "completed" "all" none none
      [sampleOrder1, sampleOrder2, sampleOrder3] = [sampleOrder2, sampleOrder3] ∧
    (getOrderStats (filterOrders "" "completed" "all" none none
      [sampleOrder1, sampleOrder2, sampleOrder3])).completedOrders = 2 :=
  ⟨filterOrders_eq, by decide, by decide⟩

/-! ## Claim C8: revenue aggregation -/

/-- The parse of the sample numeric string. -/
theorem jsParseFloat_12_5 : jsParseFloat "12.5" = .fin (25 / 2) := by
  have h1 : digitsToNat ['1', '2'] = 12 := by decide
  have h2 : digitsToNat ['5'] = 5 := by decide
  simp +decide [jsParseFloat, parseUnsigned, applyExp, splitDigits, isWsJS, h1, h2]
  norm_num

/-- The revenue coercion maps the sample numeric string to its parsed
value. -/
theorem coerceAmount_12_5 : coerceAmount (.str "12.5") = .fin (25 / 2) := by
  have hne : ¬("12.5" : String) = "" := by decide
  simp only [coerceAmount, if_neg hne, jsParseFloat_12_5, jsOr0, jsTruthyNum]
  norm_num
  simp

/-- C8: the revenue aggregate is the fold of JS addition over the coerced
total amounts; a string total that parses to a number contributes its
parsed value, a string that fails to parse contributes `0`, a missing
total contributes `0`; on the three sample orders (string `"12.5"`,
missing, number `10`) the revenue is `22.5`. -/
theorem C8_getOrderStats_revenue_spec :
    (∀ orders : List Order, (getOrderStats orders).totalRevenue =
      orders.foldl (fun sum o => jsAdd sum (coerceAmount o.totalAmount)) (.fin 0)) ∧
    (∀ s : String, (jsParseFloat s).isNaN = false → s ≠ "" →
      coerceAmount (.str s) = jsParseFloat s) ∧
    (∀ s : String, (jsParseFloat s).isNaN = true → coerceAmount (.str s) = .fin 0) ∧
    coerceAmount .missing = .fin 0 ∧
    (getOrderStats [sampleOrder1, sampleOrder2, sampleOrder3]).totalRevenue =
      .fin (45 / 2) := by
  refine ⟨fun orders => rfl, fun s hnan hne => ?_, fun s hnan => ?_, by decide, ?_⟩
  · simp only [coerceAmount, if_neg hne, jsOr0]
    by_cases ht : jsTruthyNum (jsParseFloat s) = true
    · rw [if_pos ht]
    · rw [if_neg ht]
      cases hp : jsParseFloat s with
      | nan => rw [hp] at hnan; simp [JSNum.isNaN] at hnan
      | posInf => rw [hp] at ht; simp [jsTruthyNum] at ht
      | negInf => rw [hp] at ht; simp [jsTruthyNum] at ht
      | fin q =>
        rw [hp] at ht
        simp [jsTruthyNum] at ht
        rw [ht]
  · by_cases hse : s = ""
    · subst hse
      decide
    · have h : jsParseFloat s = .nan := by
        cases hp : jsParseFloat s with
        | nan => rfl
        | posInf => rw [hp] at hnan; simp [JSNum.isNaN] at hnan
        | negInf => rw [hp] at hnan; simp [JSNum.isNaN] at hnan
        | fin q => rw [hp] at hnan; simp [JSNum.isNaN] at hnan
      simp only [coerceAmount, if_neg hse, h]
      decide
  · have hc2 : coerceAmount .missing = .fin 0 := by decide
    have hc3 : coerceAmount (.num (.fin 10)) = .fin 10 := by decide
    show List.foldl (fun sum o => jsAdd sum (coerceAmount o.totalAmount)) (.fin 0)
      [sampleOrder1, sampleOrder2, sampleOrder3] = .fin (45 / 2)
    simp only [List.foldl, sampleOrder1, sampleOrder2, sampleOrder3, coerceAmount_12_5,
      hc2, hc3, jsAdd]
    norm_num

/-- C8 witness: the parsed-string conjunct applied at `"12.5"`. -/
theorem C8_getOrderStats_revenue_spec_witness :
    (jsParseFloat "12.5").isNaN = false ∧ ("12.5" : String) ≠ "" ∧
    coerceAmount (.str "12.5") = jsParseFloat "12.5" :=
  ⟨by decide, by decide, C8_getOrderStats_revenue_spec.2.1 "12.5" (by decide) (by decide)⟩

/-! ## Claim C9: addon title resolution -/

/-- C9: the resolved display title follows the priority chain — embedded
`addonTitle` (when present and non-empty), else embedded `title`, else
embedded `name`, else the catalog entry found by `addonId`, else the
positional fallback label `"Addon (index+1)"`. -/
theorem C9_getAddonTitle_priority :
    (∀ (ad : List CatalogAddon) (adn : AddonSel) (i : ℕ) (t : String),
      adn.addonTitle = some t → t ≠ "" → getAddonTitle ad adn i = t) ∧
    (∀ (ad : List CatalogAddon) (adn : AddonSel) (i : ℕ) (t : String),
      truthyStr adn.addonTitle = false → adn.title = some t → t ≠ "" →
      getAddonTitle ad adn i = t) ∧
    (∀ (ad : List CatalogAddon) (adn : AddonSel) (i : ℕ) (t : String),
      truthyStr adn.addonTitle = false → truthyStr adn.title = false →
      adn.name = some t → t ≠ "" → getAddonTitle ad adn i = t) ∧
    (∀ (ad : List CatalogAddon) (adn : AddonSel) (i : ℕ) (aid : String) (e : CatalogAddon),
      truthyStr adn.addonTitle = false → truthyStr adn.title = false →
      truthyStr adn.name = false → adn.addonId = some aid → aid ≠ "" →
      ad.find? (fun a => a.id == aid) = some e → getAddonTitle ad adn i = e.title) ∧
    (∀ (ad : List CatalogAddon) (adn : AddonSel) (i : ℕ),
      truthyStr adn.addonTitle = false → truthyStr adn.title = false →
      truthyStr adn.name = false →
      (truthyStr adn.addonId = false ∨
        ad.find? (fun a => a.id == adn.addonId.getD "") = none) →
      getAddonTitle ad adn i = "Addon " ++ toString (i + 1)) := by
  refine ⟨?_, ?_, ?_, ?_, ?_⟩
  · intro ad adn i t hA hne
    have ht : truthyStr adn.addonTitle = true := by rw [hA]; simp [truthyStr, hne]
    simp only [getAddonTitle]
    rw [if_pos ht, hA, Option.getD_some]
  · intro ad adn i t h1 hA hne
    have ht : truthyStr adn.title = true := by rw [hA]; simp [truthyStr, hne]
    simp only [getAddonTitle]
    rw [if_neg (by simp [h1]), if_pos ht, hA, Option.getD_some]
  · intro ad adn i t h1 h2 hA hne
    have ht : truthyStr adn.name = true := by rw [hA]; simp [truthyStr, hne]
    simp only [getAddonTitle]
    rw [if_neg (by simp [h1]), if_neg (by simp [h2]), if_pos ht, hA, Option.getD_some]
  · intro ad adn i aid e h1 h2 h3 hid hne hfind
    have hta : truthyStr adn.addonId = true := by rw [hid]; simp [truthyStr, hne]
    have hnil : ad ≠ [] := by
      intro h
      rw [h] at hfind
      simp at hfind
    have hlen : ad.length > 0 := List.length_pos.mpr hnil
    have hcond : (truthyStr adn.addonId && decide (ad.length > 0)) = true := by
      simp [hta, hlen]
    simp only [getAddonTitle]
    rw [if_neg (by simp [h1]), if_neg (by simp [h2]), if_neg (by simp [h3]), if_pos hcond,
      hid, Option.getD_some, hfind]
  · intro ad adn i h1 h2 h3 hor
    rcases hor with h4 | h4
    · have hcond : (truthyStr adn.addonId && decide (ad.length > 0)) = false := by
        simp [h4]
      simp only [getAddonTitle]
      rw [if_neg (by simp [h1]), if_neg (by simp [h2]), if_neg (by simp [h3]),
        if_neg (by simp [hcond])]
    · rcases Bool.eq_false_or_eq_true (truthyStr adn.addonId) with h5 | h5
      · rcases ad with _ | ⟨a0, tl⟩
        · simp only [getAddonTitle]
          rw [if_neg (by simp [h1]), if_neg (by simp [h2]), if_neg (by simp [h3]),
            if_neg (by simp)]
        · simp only [getAddonTitle]
          rw [if_neg (by simp [h1]), if_neg (by simp [h2]), if_neg (by simp [h3]),
            if_pos (by simp [h5]), h4]
      · have hcond : (truthyStr adn.addonId && decide (ad.length > 0)) = false := by
          simp [h5]
        simp only [getAddonTitle]
        rw [if_neg (by simp [h1]), if_neg (by simp [h2]), if_neg (by simp [h3]),
          if_neg (by simp [hcond])]

/-- C9 witness: the catalog-lookup conjunct at a concrete selection that
carries only an identifier, and the positional fallback at an empty
selection. -/
theorem C9_getAddonTitle_priority_witness :
    getAddonTitle [⟨"a1", "Extra Cheese"⟩] ⟨some "a1", none, none, none⟩ 0 = "Extra Cheese" ∧
    getAddonTitle [] ⟨none, none, none, none⟩ 0 = "Addon " ++ toString (0 + 1) :=
  ⟨C9_getAddonTitle_priority.2.2.2.1 [⟨"a1", "Extra Cheese"⟩] ⟨some "a1", none, none, none⟩ 0
      "a1" ⟨"a1", "Extra Cheese"⟩ rfl rfl rfl rfl (by decide) (by decide),
   C9_getAddonTitle_priority.2.2.2.2 [] ⟨none, none, none, none⟩ 0 rfl rfl rfl (Or.inl rfl)⟩

/-! ## Claim C1: attribute key round-trip -/

/-- `split` never returns an empty array. -/
theorem splitOnChar_ne_nil (c : Char) (l : List Char) : splitOnChar c l ≠ [] := by
  cases l with
  | nil => simp [splitOnChar]
  | cons x xs =>
    simp only [splitOnChar]
    cases h : splitOnChar c xs with
    | nil => simp
    | cons hd tl => by_cases hx : x = c <;> simp [hx]

/-- A string free of the separator splits to itself. -/
theorem splitOnChar_of_not_mem (c : Char) :
    ∀ v : List Char, c ∉ v → splitOnChar c v = [v]
  | [], _ => rfl
  | x :: xs, h => by
    have hx : x ≠ c := by rintro rfl; exact h (List.mem_cons_self x xs)
    have ih := splitOnChar_of_not_mem c xs (fun hm => h (List.mem_cons_of_mem x hm))
    simp only [splitOnChar, ih]
    simp [hx]

/-- Splitting peels off a separator-free prefix before the first
separator. -/
theorem splitOnChar_append (c : Char) :
    ∀ (a b : List Char), c ∉ a → splitOnChar c (a ++ c :: b) = a :: splitOnChar c b
  | [], b, _ => by
    simp only [List.nil_append, splitOnChar]
    cases h : splitOnChar c b with
    | nil => exact absurd h (splitOnChar_ne_nil c b)
    | cons hd tl => simp
  | x :: a', b, h => by
    have hx : x ≠ c := by rintro rfl; exact h (List.mem_cons_self x a')
    have ih := splitOnChar_append c a' b (fun hm => h (List.mem_cons_of_mem x hm))
    show (match splitOnChar c (a' ++ c :: b) with
      | [] => [[]]
      | hd :: t => if x = c then [] :: hd :: t else (x :: hd) :: t) =
      (x :: a') :: splitOnChar c b
    rw [ih]
    simp [hx]

/-- `join` and `split` on the same separator are mutually inverse on
non-empty part lists whose parts do not contain the separator. -/
theorem splitOnChar_interChar (c : Char) :
    ∀ ps : List (List Char), ps ≠ [] → (∀ p ∈ ps, c ∉ p) →
      splitOnChar c (interChar c ps) = ps
  | [], h, _ => absurd rfl h
  | [p], _, hall => by
    show splitOnChar c p = [p]
    exact splitOnChar_of_not_mem c p (hall p (List.mem_singleton_self p))
  | p :: q :: ps, _, hall => by
    show splitOnChar c (p ++ c :: interChar c (q :: ps)) = p :: q :: ps
    rw [splitOnChar_append c p _ (hall p (List.mem_cons_self p (q :: ps)))]
    rw [splitOnChar_interChar c (q :: ps) (by simp)
      (fun r hr => hall r (List.mem_cons_of_mem p hr))]

/-- An encoded `key:value` part splits back to exactly key and value when
neither contains `:`. -/
theorem splitOnChar_encPair (kv : List Char × List Char)
    (hk : ':' ∉ kv.1) (hv : ':' ∉ kv.2) :
    splitOnChar ':' (encPair kv) = [kv.1, kv.2] := by
  show splitOnChar ':' (kv.1 ++ ':' :: kv.2) = [kv.1, kv.2]
  rw [splitOnChar_append ':' kv.1 kv.2 hk, splitOnChar_of_not_mem ':' kv.2 hv]

/-- Folding the pair-parsing step over encoded entries (with well-formed
keys and values) inserts exactly those entries. -/
theorem foldl_parsePairStep_enc :
    ∀ (sm : List (List Char × List Char)),
      (∀ kv ∈ sm, kv.1 ≠ [] ∧ kv.2 ≠ [] ∧ ':' ∉ kv.1 ∧ ':' ∉ kv.2) →
      ∀ acc, (sm.map encPair).foldl parsePairStep acc =
        sm.foldl (fun a kv => insertKV a kv.1 kv.2) acc
  | [], _, acc => rfl
  | kv :: sm, hgood, acc => by
    obtain ⟨h1, h2, h3, h4⟩ := hgood kv (List.mem_cons_self kv sm)
    have hsplit := splitOnChar_encPair kv h3 h4
    simp only [List.map_cons, List.foldl_cons, parsePairStep, hsplit]
    rw [if_pos ⟨h1, h2⟩]
    exact foldl_parsePairStep_enc sm (fun x hx => hgood x (List.mem_cons_of_mem kv hx)) _

/-- Inserting entries with fresh, pairwise-distinct keys appends them in
order. -/
theorem foldl_insertKV_eq_append :
    ∀ (m acc : List (List Char × List Char)),
      (∀ k ∈ m.map Prod.fst, k ∉ acc.map Prod.fst) → (m.map Prod.fst).Nodup →
      m.foldl (fun a kv => insertKV a kv.1 kv.2) acc = acc ++ m
  | [], acc, _, _ => by simp
  | kv :: m', acc, hd, hnd => by
    simp only [List.map_cons, List.nodup_cons] at hnd
    have hk : kv.1 ∉ acc.map Prod.fst := hd kv.1 (by simp)
    have hins : insertKV acc kv.1 kv.2 = acc ++ [kv] := by
      simp only [insertKV]
      rw [if_neg]
      simp only [List.any_eq_true, beq_iff_eq, not_exists, not_and]
      intro p hp hpe
      exact hk (List.mem_map.mpr ⟨p, hp, hpe⟩)
    simp only [List.foldl_cons, hins]
    rw [foldl_insertKV_eq_append m' (acc ++ [kv]) ?_ hnd.2]
    · simp
    · intro k hkm
      simp only [List.map_append, List.mem_append, List.map_cons, List.map_nil,
        List.mem_singleton]
      rintro (hacc | hkv)
      · exact hd k (List.mem_cons_of_mem kv.1 hkm) hacc
      · exact hnd.1 (hkv ▸ hkm)

/-- On an association list with distinct keys, lookup finds the stored
value of any contained entry. -/
theorem lookupKV_eq_some :
    ∀ (m : List (List Char × List Char)), (m.map Prod.fst).Nodup →
      ∀ {k v : List Char}, (k, v) ∈ m → lookupKV m k = some v
  | [], _, _, _, hmem => absurd hmem (List.not_mem_nil _)
  | p :: m', hnd, k, v, hmem => by
    simp only [List.map_cons, List.nodup_cons] at hnd
    rcases List.mem_cons.mp hmem with h | h
    · subst h
      simp [lookupKV, List.find?]
    · have hne : ¬(p.1 == k) = true := by
        simp only [beq_iff_eq]
        intro he
        exact hnd.1 (he ▸ List.mem_map.mpr ⟨(k, v), h, rfl⟩)
      have hne2 : (p.1 == k) = false := by
        cases hb : p.1 == k
        · rfl
        · exact absurd hb hne
      show (List.find? (fun q => q.1 == k) (p :: m')).map Prod.snd = some v
      simp only [List.find?_cons, hne2]
      exact lookupKV_eq_some m' hnd.2 h

/-- Two permuted association lists with distinct keys are deep-equal as
mappings. -/
theorem mapEqb_of_perm (m1 m2 : List (List Char × List Char)) (hperm : m1.Perm m2)
    (hnd : (m2.map Prod.fst).Nodup) : mapEqb m1 m2 = true := by
  have hnd1 : (m1.map Prod.fst).Nodup := ((hperm.map Prod.fst).nodup_iff).mpr hnd
  simp only [mapEqb, Bool.and_eq_true, List.all_eq_true]
  constructor
  · intro p hp
    rw [beq_iff_eq]
    exact lookupKV_eq_some m2 hnd (hperm.subset hp)
  · intro p hp
    rw [beq_iff_eq]
    exact lookupKV_eq_some m1 hnd1 (hperm.symm.subset hp)

/-- C1 (amended): `parseAttributeKey(generateAttributeKey(m))` deep-equals
`m` for every mapping with distinct keys whose keys and values are
non-empty and contain no `:` or `|`.  (The non-emptiness condition is the
amendment: `parseAttributeKey` drops pairs whose key or value is the empty
string.) -/
theorem C1_roundtrip_amended (m : List (List Char × List Char)) (hnd : keysNodup m)
    (hgood : ∀ kv ∈ m, kv.1 ≠ [] ∧ kv.2 ≠ [] ∧
      ':' ∉ kv.1 ∧ '|' ∉ kv.1 ∧ ':' ∉ kv.2 ∧ '|' ∉ kv.2) :
    mapEqb (parseAttributeKey (generateAttributeKey m)) m = true := by
  cases m with
  | nil => decide
  | cons kv0 m' =>
    set sorted := List.insertionSort (fun a b => keyLe a.1 b.1 = true) (kv0 :: m')
      with hsorted
    have hperm : sorted.Perm (kv0 :: m') := List.perm_insertionSort _ _
    have hgood' : ∀ kv ∈ sorted, kv.1 ≠ [] ∧ kv.2 ≠ [] ∧
        ':' ∉ kv.1 ∧ '|' ∉ kv.1 ∧ ':' ∉ kv.2 ∧ '|' ∉ kv.2 :=
      fun kv hkv => hgood kv (hperm.subset hkv)
    have hsne : sorted ≠ [] := by
      intro he
      rw [he] at hperm
      exact List.cons_ne_nil kv0 m' (List.perm_nil.mp hperm.symm)
    have hparts_ne : sorted.map encPair ≠ [] := by
      intro he
      exact hsne (List.map_eq_nil_iff.mp he)
    have hparts_bar : ∀ p ∈ sorted.map encPair, '|' ∉ p := by
      intro p hp hmem
      obtain ⟨kv, hkv, rfl⟩ := List.mem_map.mp hp
      obtain ⟨-, -, -, hk4, -, hv6⟩ := hgood' kv hkv
      simp only [encPair, List.mem_append, List.mem_cons] at hmem
      rcases hmem with h | h | h
      · exact hk4 h
      · exact absurd h (by decide)
      · exact hv6 h
    have hsplit := splitOnChar_interChar '|' (sorted.map encPair) hparts_ne hparts_bar
    have hfold := foldl_parsePairStep_enc sorted
      (fun kv hkv => ⟨(hgood' kv hkv).1, (hgood' kv hkv).2.1, (hgood' kv hkv).2.2.1,
        (hgood' kv hkv).2.2.2.2.1⟩) []
    have hnds : (sorted.map Prod.fst).Nodup := ((hperm.map Prod.fst).nodup_iff).mpr hnd
    have happ := foldl_insertKV_eq_append sorted [] (by simp) hnds
    have hparse : parseAttributeKey (generateAttributeKey (kv0 :: m')) = sorted := by
      show (splitOnChar '|' (interChar '|' (sorted.map encPair))).foldl parsePairStep [] =
        sorted
      rw [hsplit, hfold, happ]
      simp
    rw [hparse]
    exact mapEqb_of_perm sorted (kv0 :: m') hperm hnd

/-- C1 counterexample: the claim as stated quantifies over all mappings
whose keys and values contain no `:`/`|`; the mapping `{a: ""}` satisfies
that, yet the round-trip loses the pair (the empty value is falsy, so the
parser drops it), returning the empty mapping. -/
theorem C1_roundtrip_cex :
    parseAttributeKey (generateAttributeKey [(['a'], [])]) = [] ∧
    mapEqb (parseAttributeKey (generateAttributeKey [(['a'], [])])) [(['a'], [])] = false := by
  decide

/-- C1 witness: the amended round-trip at the concrete two-entry mapping
`color ↦ red, size ↦ m`. -/
theorem C1_roundtrip_amended_witness :
    keysNodup [("color".toList, "red".toList), ("size".toList, "m".toList)] ∧
    mapEqb (parseAttributeKey (generateAttributeKey
      [("color".toList, "red".toList), ("size".toList, "m".toList)]))
      [("color".toList, "red".toList), ("size".toList, "m".toList)] = true :=
  ⟨by unfold keysNodup; decide, C1_roundtrip_amended _ (by unfold keysNodup; decide) (by decide)⟩

/-! ## Claim C10: generateSlug produces valid slugs -/

/-- A boolean that is not true is false. -/
theorem bool_eq_false {b : Bool} (h : ¬ b = true) : b = false := by
  cases b
  · rfl
  · exact absurd rfl h

/-- The head of `dropWhile p` never satisfies `p`. -/
theorem head_dropWhile (p : Char → Bool) :
    ∀ l : List Char, ∀ x ∈ (List.dropWhile p l).head?, p x = false
  | [], x, hx => by simp at hx
  | c :: cs, x, hx => by
    rw [List.dropWhile_cons] at hx
    by_cases hc : p c = true
    · rw [if_pos hc] at hx
      exact head_dropWhile p cs x hx
    · rw [if_neg hc] at hx
      have hxc : x = c := (by simpa using hx : c = x).symm
      subst hxc
      exact bool_eq_false hc

/-- Every character of a collapsed string is the replacement or an
original character outside the collapsed class. -/
theorem mem_collapseRun (p : Char → Bool) (r : Char) :
    ∀ l : List Char, ∀ x ∈ collapseRun p r l, x = r ∨ (x ∈ l ∧ p x = false)
  | [], x, hx => by simp [collapseRun] at hx
  | [c], x, hx => by
    by_cases hc : p c = true
    · rw [show collapseRun p r [c] = if p c = true then [r] else [c] from rfl,
        if_pos hc] at hx
      exact Or.inl (by simpa using hx)
    · rw [show collapseRun p r [c] = if p c = true then [r] else [c] from rfl,
        if_neg hc] at hx
      have hxc : x = c := by simpa using hx
      subst hxc
      exact Or.inr ⟨List.mem_singleton_self x, bool_eq_false hc⟩
  | c :: d :: cs, x, hx => by
    rw [show collapseRun p r (c :: d :: cs) =
      if (p c && p d) = true then collapseRun p r (d :: cs)
      else (if p c = true then r else c) :: collapseRun p r (d :: cs) from rfl] at hx
    by_cases hcd : (p c && p d) = true
    · rw [if_pos hcd] at hx
      rcases mem_collapseRun p r (d :: cs) x hx with h | ⟨hm, hp⟩
      · exact Or.inl h
      · exact Or.inr ⟨List.mem_cons_of_mem c hm, hp⟩
    · rw [if_neg hcd] at hx
      rcases List.mem_cons.mp hx with h | h
      · by_cases hc : p c = true
        · rw [if_pos hc] at h
          exact Or.inl h
        · rw [if_neg hc] at h
          subst h
          exact Or.inr ⟨List.mem_cons_self _ _, bool_eq_false hc⟩
      · rcases mem_collapseRun p r (d :: cs) x h with h2 | ⟨hm, hp⟩
        · exact Or.inl h2
        · exact Or.inr ⟨List.mem_cons_of_mem c hm, hp⟩

/-- Collapsing keeps a head that is outside the collapsed class. -/
theorem head_collapseRun (p : Char → Bool) (r : Char) (d : Char) (cs : List Char)
    (hd : p d = false) : (collapseRun p r (d :: cs)).head? = some d := by
  cases cs with
  | nil =>
    show (if p d = true then [r] else [d]).head? = some d
    rw [if_neg (by simp [hd])]
    rfl
  | cons e cs' =>
    show (if (p d && p e) = true then collapseRun p r (e :: cs')
      else (if p d = true then r else d) :: collapseRun p r (e :: cs')).head? = some d
    rw [if_neg (by simp [hd]), if_neg (by simp [hd])]
    rfl

/-- After collapsing, no two adjacent characters are both in the
collapsed class. -/
theorem chain_collapseRun (p : Char → Bool) (r : Char) :
    ∀ l : List Char,
      List.Chain' (fun a b => ¬(p a = true ∧ p b = true)) (collapseRun p r l)
  | [] => by simp [collapseRun]
  | [c] => by
    show List.Chain' _ (if p c = true then [r] else [c])
    by_cases hc : p c = true
    · rw [if_pos hc]
      exact List.chain'_singleton r
    · rw [if_neg hc]
      exact List.chain'_singleton c
  | c :: d :: cs => by
    have ih := chain_collapseRun p r (d :: cs)
    show List.Chain' _ (if (p c && p d) = true then collapseRun p r (d :: cs)
      else (if p c = true then r else c) :: collapseRun p r (d :: cs))
    by_cases hcd : (p c && p d) = true
    · rw [if_pos hcd]
      exact ih
    · rw [if_neg hcd]
      apply List.chain'_cons'.mpr ⟨?_, ih⟩
      intro y hy
      by_cases hc : p c = true
      · have hdf : p d = false := by
          cases hpd : p d
          · rfl
          · exact absurd (by simp [hc, hpd]) hcd
        rw [head_collapseRun p r d cs hdf] at hy
        have hyd : y = d := (by simpa using hy : d = y).symm
        subst hyd
        rw [if_pos hc]
        intro hcon
        rw [hdf] at hcon
        exact absurd hcon.2 (by simp)
      · rw [if_neg hc]
        intro hcon
        exact hc hcon.1

/-- Stripping the edges only removes characters. -/
theorem mem_stripEdges (p : Char → Bool) (l : List Char) :
    ∀ x ∈ stripEdges p l, x ∈ l := by
  intro x hx
  simp only [stripEdges] at hx
  rw [List.mem_reverse] at hx
  have h1 : x ∈ (l.dropWhile p).reverse := List.IsSuffix.mem hx (List.dropWhile_suffix p)
  rw [List.mem_reverse] at h1
  exact List.IsSuffix.mem h1 (List.dropWhile_suffix p)

/-- Stripping the edges preserves the no-adjacent-pair property. -/
theorem chain_stripEdges (p : Char → Bool) (l : List Char)
    (h : List.Chain' (fun a b => ¬(p a = true ∧ p b = true)) l) :
    List.Chain' (fun a b => ¬(p a = true ∧ p b = true)) (stripEdges p l) := by
  have symmR : ∀ {m : List Char},
      List.Chain' (fun a b => ¬(p a = true ∧ p b = true)) m →
      List.Chain' (flip fun a b => ¬(p a = true ∧ p b = true)) m :=
    fun hc => List.Chain'.imp (fun _ _ hab hcon => hab ⟨hcon.2, hcon.1⟩) hc
  have h1 := h.suffix (List.dropWhile_suffix p)
  have h2 : List.Chain' (fun a b => ¬(p a = true ∧ p b = true)) (l.dropWhile p).reverse :=
    List.chain'_reverse.mpr (symmR h1)
  have h3 := h2.suffix (List.dropWhile_suffix p)
  exact List.chain'_reverse.mpr (symmR h3)

/-- After stripping, the head (if any) is outside the stripped class. -/
theorem head_stripEdges (p : Char → Bool) (l : List Char) :
    ∀ x ∈ (stripEdges p l).head?, p x = false := by
  intro x hx
  simp only [stripEdges] at hx
  rw [List.head?_reverse] at hx
  rcases hq : (l.dropWhile p).reverse.dropWhile p with _ | ⟨h0, t0⟩
  · rw [hq] at hx
    simp at hx
  · have hsuf : (h0 :: t0) <:+ (l.dropWhile p).reverse := hq ▸ List.dropWhile_suffix p
    obtain ⟨pre, hpre⟩ := hsuf
    rw [hq] at hx
    have hlast : (h0 :: t0).getLast? = (l.dropWhile p).reverse.getLast? := by
      rw [← hpre, List.getLast?_append_of_ne_nil]
      exact List.cons_ne_nil h0 t0
    rw [hlast, List.getLast?_reverse] at hx
    exact head_dropWhile p l x hx

/-- After stripping, the last character (if any) is outside the stripped
class. -/
theorem last_stripEdges (p : Char → Bool) (l : List Char) :
    ∀ x ∈ (stripEdges p l).getLast?, p x = false := by
  intro x hx
  simp only [stripEdges] at hx
  rw [List.getLast?_reverse] at hx
  exact head_dropWhile p _ x hx

/-- The slug regex accepts every non-empty string over `[a-z0-9-]` with
no adjacent hyphens and no hyphen at either end. -/
theorem slugMatch_of_conds :
    ∀ l : List Char, l ≠ [] →
      (∀ c ∈ l, isAlnumLower c = true ∨ c = '-') →
      List.Chain' (fun a b => ¬((a == '-') = true ∧ (b == '-') = true)) l →
      (∀ x ∈ l.getLast?, (x == '-') = false) →
      ((∀ x ∈ l.head?, (x == '-') = false) → slugMatch false l = true) ∧
        slugMatch true l = true
  | [], hne, _, _, _ => absurd rfl hne
  | [c], _, hchars, _, hlast => by
    have hc : (c == '-') = false := hlast c (by simp)
    have hcne : c ≠ '-' := by
      intro h
      rw [h] at hc
      simp at hc
    have hca : isAlnumLower c = true := by
      rcases hchars c (by simp) with h | h
      · exact h
      · exact absurd h hcne
    constructor
    · intro _
      show (if c = '-' then false && slugMatch false [] else
        isAlnumLower c && slugMatch true []) = true
      rw [if_neg hcne, hca]
      rfl
    · show (if c = '-' then true && slugMatch false [] else
        isAlnumLower c && slugMatch true []) = true
      rw [if_neg hcne, hca]
      rfl
  | c :: d :: cs, _, hchars, hchain, hlast => by
    have hlast' : ∀ x ∈ (d :: cs).getLast?, (x == '-') = false := by
      intro x hx
      apply hlast
      rw [List.getLast?_cons_cons]
      exact hx
    have hchain' : List.Chain' (fun a b => ¬((a == '-') = true ∧ (b == '-') = true))
        (d :: cs) := hchain.tail
    have ih := slugMatch_of_conds (d :: cs) (by simp)
      (fun x hx => hchars x (List.mem_cons_of_mem c hx)) hchain' hlast'
    by_cases hc : c = '-'
    · subst hc
      have hdne : (d == '-') = false := by
        have hh := (List.chain'_cons'.mp hchain).1 d (by simp)
        cases hb : d == '-'
        · rfl
        · exact absurd ⟨by simp, hb⟩ hh
      constructor
      · intro hhead
        have := hhead '-' (by simp)
        simp at this
      · show (if '-' = '-' then true && slugMatch false (d :: cs) else
          isAlnumLower '-' && slugMatch true (d :: cs)) = true
        rw [if_pos rfl, Bool.true_and]
        refine ih.1 ?_
        intro x hx
        have hxd : x = d := (by simpa using hx : d = x).symm
        subst hxd
        exact hdne
    · have hca : isAlnumLower c = true := by
        rcases hchars c (by simp) with h | h
        · exact h
        · exact absurd h hc
      constructor
      · intro _
        show (if c = '-' then false && slugMatch false (d :: cs) else
          isAlnumLower c && slugMatch true (d :: cs)) = true
        rw [if_neg hc, hca, Bool.true_and]
        exact ih.2
      · show (if c = '-' then true && slugMatch false (d :: cs) else
          isAlnumLower c && slugMatch true (d :: cs)) = true
        rw [if_neg hc, hca, Bool.true_and]
        exact ih.2

/-- C10: for every input string, `generateSlug` returns either the empty
string or a string accepted by `isValidSlug` (lowercase alphanumeric
segments joined by single hyphens, no leading or trailing hyphen). -/
theorem C10_generateSlug_isValidSlug (t : String) :
    generateSlug t = "" ∨ isValidSlug (generateSlug t) = true := by
  by_cases h0 : t = ""
  · left
    simp [generateSlug, h0]
  · have hgen : generateSlug t = String.mk (stripEdges (fun c => c == '-')
        (collapseRun (fun c => c == '-') '-'
          (collapseRun isWsJS '-'
            ((((trimChars (t.toList.map Char.toLower)).flatMap nfdChar).filter
                (fun c => !isCombiningMark c)).filter isSafeChar)))) := by
      simp only [generateSlug, if_neg h0]
    set l0 := (((trimChars (t.toList.map Char.toLower)).flatMap nfdChar).filter
      (fun c => !isCombiningMark c)).filter isSafeChar with hl0
    set l1 := collapseRun isWsJS '-' l0 with hl1
    set l2 := collapseRun (fun c => c == '-') '-' l1 with hl2
    set u := stripEdges (fun c => c == '-') l2 with hu
    rcases eq_or_ne u [] with hnil | hne
    · left
      rw [hgen, hnil]
    · right
      rw [hgen]
      show slugMatch false u = true
      have hchar : ∀ c ∈ u, isAlnumLower c = true ∨ c = '-' := by
        intro c hc
        have h2 : c ∈ l2 := mem_stripEdges _ _ c hc
        rcases mem_collapseRun _ '-' l1 c h2 with h | ⟨h3, _⟩
        · exact Or.inr h
        · rcases mem_collapseRun isWsJS '-' l0 c h3 with h | ⟨h4, hw⟩
          · exact Or.inr h
          · have hsafe : isSafeChar c = true := List.of_mem_filter h4
            simp only [isSafeChar, Bool.or_eq_true] at hsafe
            rcases hsafe with (h | h) | h
            · exact Or.inl h
            · rw [hw] at h
              simp at h
            · exact Or.inr (by simpa using h)
      have hchain : List.Chain' (fun a b => ¬((a == '-') = true ∧ (b == '-') = true)) u :=
        chain_stripEdges _ _ (chain_collapseRun _ '-' l1)
      have hlast : ∀ x ∈ u.getLast?, (x == '-') = false := last_stripEdges _ _
      have hhead : ∀ x ∈ u.head?, (x == '-') = false := head_stripEdges _ _
      exact (slugMatch_of_conds u hne hchar hchain hlast).1 hhead
